import Mathlib

/-!
Shallow embedding of the transactional in-memory key-value store in
`database.py` (class `Database`): the key→value map `data`, the value→count
index `_counts`, and the stack of transaction frames `transactions`, together
with the operations `set`, `get`, `unset`, `get_counts`, `find`, `begin`,
`rollback` and `commit`.

Python dicts are embedded as association lists in insertion order:
assignment replaces the value in place when the key is present and appends
otherwise, deletion removes the entry, lookup scans from the front.
A missing-key subscript read raises `KeyError`; operations that can reach one
(through `_decrement_count`) therefore return `Option`, with `none` standing
for the raised exception.

The Python transaction stack appends frames at the end of a list and works on
`transactions[-1]`; here the head of the list is that top frame.
-/

/-- Python `d[k]` / `d.get(k)` read: value of the first entry with key `k`. -/
def assocLookup {β : Type} (m : List (String × β)) (k : String) : Option β :=
  match m with
  | [] => none
  | (k', v) :: rest => if k' = k then some v else assocLookup rest k

/-- Python `d[k] = v` write: replace in place when present, append otherwise. -/
def assocInsert {β : Type} (m : List (String × β)) (k : String) (v : β) :
    List (String × β) :=
  match m with
  | [] => [(k, v)]
  | (k', v') :: rest =>
    if k' = k then (k, v) :: rest else (k', v') :: assocInsert rest k v

/-- Python `del d[k]`: drop the entry with key `k`. -/
def assocErase {β : Type} (m : List (String × β)) (k : String) :
    List (String × β) :=
  match m with
  | [] => []
  | (k', v') :: rest => if k' = k then rest else (k', v') :: assocErase rest k

/-- Lexicographic comparison of character lists by code point, the order
Python's `sorted` uses on the strings involved here. -/
def lexLe : List Char → List Char → Bool
  | [], _ => true
  | _ :: _, [] => false
  | a :: as, b :: bs =>
    if a.val.toNat < b.val.toNat then true
    else if b.val.toNat < a.val.toNat then false
    else lexLe as bs

/-- Lexicographic (code-point) comparison of keys. -/
def keyLe (a b : String) : Bool := lexLe a.data b.data

/-- A transaction frame: key → value held immediately before the frame
touched it (`none` = the key was absent), as recorded by the code. -/
abbrev Frame : Type := List (String × Option String)

/-- The state of `Database.__init__`: `data`, `_counts` and `transactions`.
The head of `transactions` is the innermost (most recently begun) frame. -/
structure Database where
  data : List (String × String)
  counts : List (String × Int)
  transactions : List Frame
deriving DecidableEq

/-- A fresh store, as built by `Database.__init__`. -/
def Database.empty : Database := ⟨[], [], []⟩

/-- `Database._increment_count`: `counts[v] = counts.get(v, 0) + 1`. -/
def incrementCount (c : List (String × Int)) (v : String) :
    List (String × Int) :=
  assocInsert c v ((assocLookup c v).getD 0 + 1)

/-- `Database._decrement_count`: `counts[v] -= 1`, deleting the entry when it
reaches zero; `none` models the `KeyError` raised when `v` is absent. -/
def decrementCount (c : List (String × Int)) (v : String) :
    Option (List (String × Int)) :=
  match assocLookup c v with
  | none => none
  | some n => some (if n - 1 = 0 then assocErase c v else assocInsert c v (n - 1))

/-- The `data`/`counts` part of writing `name = value`: decrement the count
of the currently held value when one exists, store the new value, increment
its count. This is the mutation both `Database.set` and the `old_value is
not None` arm of the `rollback` loop perform. -/
def coreSet (d : List (String × String)) (c : List (String × Int))
    (name value : String) :
    Option (List (String × String) × List (String × Int)) :=
  match assocLookup d name with
  | none => some (assocInsert d name value, incrementCount c value)
  | some old =>
    (decrementCount c old).map fun c1 =>
      (assocInsert d name value, incrementCount c1 value)

/-- The `data`/`counts` part of removing `name`: nothing when absent,
otherwise decrement the count of the held value and delete the entry. This
is the mutation both `Database.unset` and the `old_value is None` arm of the
`rollback` loop perform. -/
def coreUnset (d : List (String × String)) (c : List (String × Int))
    (name : String) :
    Option (List (String × String) × List (String × Int)) :=
  match assocLookup d name with
  | none => some (d, c)
  | some value =>
    (decrementCount c value).map fun c1 => (assocErase d name, c1)

/-- `Database.set`: record the old value into the top frame (a blind upsert,
exactly as the source writes `self.transactions[-1][name] = old_value`),
then mutate `data`/`counts` through `coreSet`. -/
def Database.set (db : Database) (name value : String) : Option Database :=
  let old := assocLookup db.data name
  let txns :=
    match db.transactions with
    | [] => []
    | top :: rest => assocInsert top name old :: rest
  (coreSet db.data db.counts name value).map fun dc =>
    { data := dc.1, counts := dc.2, transactions := txns }

/-- `Database.get`: `data.get(name, "NULL")`. -/
def Database.get (db : Database) (name : String) : String :=
  (assocLookup db.data name).getD "NULL"

/-- `Database.unset`: no-op when absent; otherwise record the current value
into the top frame (again a blind upsert), then mutate through `coreUnset`. -/
def Database.unset (db : Database) (name : String) : Option Database :=
  match assocLookup db.data name with
  | none => some db
  | some value =>
    let txns :=
      match db.transactions with
      | [] => []
      | top :: rest => assocInsert top name (some value) :: rest
    (coreUnset db.data db.counts name).map fun dc =>
      { data := dc.1, counts := dc.2, transactions := txns }

/-- `Database.get_counts`: `counts.get(value, 0)`. -/
def Database.get_counts (db : Database) (value : String) : Int :=
  (assocLookup db.counts value).getD 0

/-- `Database.find`: the keys currently mapping to `value`, sorted in
ascending lexicographic order (Python `sorted` over the filtered keys; on
the always-distinct keys of `data` every comparison sort agrees). -/
def Database.find (db : Database) (value : String) : List String :=
  List.insertionSort (fun a b => keyLe a b = true)
    ((db.data.filter (fun p => p.2 == value)).map Prod.fst)

/-- `Database.begin`: push a fresh empty frame. -/
def Database.begin (db : Database) : Database :=
  { db with transactions := [] :: db.transactions }

/-- One iteration of the `rollback` restore loop for one frame entry
`(name, old_value)`: when `old_value is None`, remove the key if still
present (exactly `coreUnset`); otherwise decrement the count of the current
value if the key is present, write the old value back and increment its
count (exactly `coreSet`). -/
def rollbackStep (dc : List (String × String) × List (String × Int))
    (e : String × Option String) :
    Option (List (String × String) × List (String × Int)) :=
  match e.2 with
  | none => coreUnset dc.1 dc.2 e.1
  | some old => coreSet dc.1 dc.2 e.1 old

/-- `Database.rollback`: `None` return when no transaction is active;
otherwise undo every entry of the top frame and pop it. The `Option String`
component is the Python return value (always `None` in the source). -/
def Database.rollback (db : Database) : Option (Database × Option String) :=
  match db.transactions with
  | [] => some (db, none)
  | top :: rest =>
    (top.foldlM rollbackStep (db.data, db.counts)).map fun dc =>
      ({ data := dc.1, counts := dc.2, transactions := rest }, none)

/-- The `commit` merge loop: copy each entry of the popped frame into the
parent frame unless the parent already records that key
(`if name not in parent_txn: parent_txn[name] = value`). -/
def mergeFrames (parent top : Frame) : Frame :=
  top.foldl
    (fun p e => if (assocLookup p e.1).isSome then p else assocInsert p e.1 e.2)
    parent

/-- `Database.commit`: `None` return when no transaction is active; otherwise
pop the top frame, first merging it into the parent frame (when one exists)
without overwriting entries already recorded there. -/
def Database.commit (db : Database) : Database × Option String :=
  match db.transactions with
  | [] => (db, none)
  | top :: rest =>
    match rest with
    | [] => ({ db with transactions := [] }, none)
    | parent :: rest' =>
      ({ db with transactions := mergeFrames parent top :: rest' }, none)

/-- One store mutation or transaction-control command. -/
inductive Op : Type
  | set (key value : String)
  | unset (key : String)
  | begin
  | rollback
  | commit
deriving DecidableEq

/-- Run one operation; `none` models an uncaught exception. -/
def applyOp (db : Database) (op : Op) : Option Database :=
  match op with
  | .set k v => db.set k v
  | .unset k => db.unset k
  | .begin => some db.begin
  | .rollback => (db.rollback).map Prod.fst
  | .commit => some (db.commit).1

/-- Run a sequence of operations from a given store state. -/
def runOps (db : Database) (ops : List Op) : Option Database :=
  ops.foldlM applyOp db

/-- The keys of an association list are pairwise distinct. Python dicts have
this by construction; every reachable `Database` satisfies it for `data` and
`counts`. -/
def keysNodup {β : Type} (m : List (String × β)) : Prop :=
  (m.map Prod.fst).Nodup

instance {β : Type} (m : List (String × β)) : Decidable (keysNodup m) := by
  unfold keysNodup; infer_instance

/-- Number of entries of `d` holding value `v` — with distinct keys, the
number of keys currently mapped to `v`. -/
def countVal (d : List (String × String)) (v : String) : Nat :=
  match d with
  | [] => 0
  | (_, u) :: rest => (if u = v then 1 else 0) + countVal rest v

/-- The value-index invariant of §4.3: `counts` holds, for every value, the
number of keys of `data` currently mapped to it, with zero-count entries
removed. -/
def countsOk (d : List (String × String)) (c : List (String × Int)) : Prop :=
  ∀ v, assocLookup c v =
    if countVal d v = 0 then none else some (countVal d v : Int)

/-- Well-formedness of the `data`/`counts` pair: distinct keys in both maps
plus the value-index invariant. -/
def PairWf (d : List (String × String)) (c : List (String × Int)) : Prop :=
  keysNodup d ∧ keysNodup c ∧ countsOk d c

/-- Well-formed store state. -/
def Database.Wf (db : Database) : Prop :=
  PairWf db.data db.counts

/-- `c` is a zero-entry-free tabulation of the count function `f`. -/
def matchesCounts (c : List (String × Int)) (f : String → Nat) : Prop :=
  ∀ v, assocLookup c v = if f v = 0 then none else some (f v : Int)

example :
    runOps Database.empty [.set "A" "10", .set "B" "20", .set "C" "10"] =
      some ⟨[("A", "10"), ("B", "20"), ("C", "10")],
            [("10", 2), ("20", 1)], []⟩ := by rfl

example :
    (runOps Database.empty [.set "A" "10", .set "C" "10"]).map
        (fun db => db.find "10") = some ["A", "C"] := by decide

example :
    (runOps Database.empty
        [.set "A" "10", .begin, .set "A" "20", .rollback]).map
        (fun db => db.get "A") = some "10" := by rfl

example :
    (runOps Database.empty
        [.set "A" "10", .begin, .unset "A", .commit]).map
        (fun db => db.get "A") = some "NULL" := by rfl

example :
    runOps Database.empty [.begin, .set "A" "1", .set "A" "2", .rollback] =
      some ⟨[("A", "1")], [("1", 1)], []⟩ := by rfl

example :
    runOps Database.empty
        [.begin, .set "A" "1", .begin, .set "A" "2", .commit, .rollback] =
      some ⟨[], [], []⟩ := by rfl

/-! ### Association-list lemmas -/

theorem assocLookup_assocInsert {β : Type} (m : List (String × β))
    (k : String) (v : β) (j : String) :
    assocLookup (assocInsert m k v) j =
      if j = k then some v else assocLookup m j := by
  induction m with
  | nil =>
    simp only [assocInsert, assocLookup]
    by_cases h : j = k
    · rw [if_pos h.symm, if_pos h]
    · rw [if_neg (fun h' => h h'.symm), if_neg h]
  | cons p rest ih =>
    obtain ⟨k', v'⟩ := p
    simp only [assocInsert]
    by_cases hk : k' = k
    · rw [if_pos hk]
      simp only [assocLookup]
      by_cases hj : j = k
      · rw [if_pos hj.symm, if_pos hj]
      · rw [if_neg (fun h' => hj h'.symm), if_neg hj,
          if_neg (fun h' : k' = j => hj (h'.symm.trans hk))]
    · rw [if_neg hk]
      simp only [assocLookup]
      by_cases hj : k' = j
      · rw [if_pos hj, if_pos hj, if_neg (fun h' : j = k => hk (hj.trans h'))]
      · rw [if_neg hj, if_neg hj, ih]

theorem assocLookup_eq_none_iff {β : Type} (m : List (String × β))
    (k : String) :
    assocLookup m k = none ↔ k ∉ m.map Prod.fst := by
  induction m with
  | nil => simp [assocLookup]
  | cons p rest ih =>
    obtain ⟨k', v'⟩ := p
    simp only [assocLookup, List.map_cons, List.mem_cons]
    by_cases h : k' = k
    · rw [if_pos h]
      constructor
      · intro h'; exact absurd h' (Option.some_ne_none v')
      · intro h'; exact absurd (Or.inl h.symm) h'
    · rw [if_neg h, ih]
      constructor
      · intro hn hc
        rcases hc with hc | hc
        · exact h hc.symm
        · exact hn hc
      · intro hn hm; exact hn (Or.inr hm)

theorem assocErase_of_lookup_none {β : Type} (m : List (String × β))
    (k : String) (h : assocLookup m k = none) : assocErase m k = m := by
  induction m with
  | nil => rfl
  | cons p rest ih =>
    obtain ⟨k', v'⟩ := p
    simp only [assocLookup] at h
    by_cases hk : k' = k
    · rw [if_pos hk] at h
      exact absurd h (Option.some_ne_none v')
    · rw [if_neg hk] at h
      simp only [assocErase]
      rw [if_neg hk, ih h]

theorem assocLookup_assocErase_ne {β : Type} (m : List (String × β))
    (k j : String) (h : j ≠ k) :
    assocLookup (assocErase m k) j = assocLookup m j := by
  induction m with
  | nil => rfl
  | cons p rest ih =>
    obtain ⟨k', v'⟩ := p
    simp only [assocErase]
    by_cases hk : k' = k
    · rw [if_pos hk]
      simp only [assocLookup]
      rw [if_neg (fun h' : k' = j => h (h'.symm.trans hk))]
    · rw [if_neg hk]
      simp only [assocLookup]
      by_cases hj : k' = j
      · rw [if_pos hj, if_pos hj]
      · rw [if_neg hj, if_neg hj, ih]

theorem assocLookup_assocErase_self {β : Type} (m : List (String × β))
    (k : String) (h : keysNodup m) :
    assocLookup (assocErase m k) k = none := by
  induction m with
  | nil => rfl
  | cons p rest ih =>
    obtain ⟨k', v'⟩ := p
    simp only [keysNodup, List.map_cons, List.nodup_cons] at h
    simp only [assocErase]
    by_cases hk : k' = k
    · rw [if_pos hk, assocLookup_eq_none_iff]
      exact hk ▸ h.1
    · rw [if_neg hk]
      simp only [assocLookup]
      rw [if_neg hk]
      exact ih h.2

theorem keys_assocInsert {β : Type} (m : List (String × β)) (k : String)
    (v : β) (j : String) :
    j ∈ (assocInsert m k v).map Prod.fst ↔ j ∈ m.map Prod.fst ∨ j = k := by
  induction m with
  | nil => simp [assocInsert]
  | cons p rest ih =>
    obtain ⟨k', v'⟩ := p
    simp only [assocInsert]
    by_cases hk : k' = k
    · rw [if_pos hk]
      simp only [List.map_cons, List.mem_cons]
      rw [← hk]
      tauto
    · rw [if_neg hk]
      simp only [List.map_cons, List.mem_cons, ih]
      tauto

theorem keysNodup_assocInsert {β : Type} (m : List (String × β))
    (k : String) (v : β) (h : keysNodup m) :
    keysNodup (assocInsert m k v) := by
  induction m with
  | nil => simp [keysNodup, assocInsert]
  | cons p rest ih =>
    obtain ⟨k', v'⟩ := p
    simp only [keysNodup, List.map_cons, List.nodup_cons] at h
    simp only [assocInsert]
    by_cases hk : k' = k
    · rw [if_pos hk]
      simp only [keysNodup, List.map_cons, List.nodup_cons]
      exact ⟨hk ▸ h.1, h.2⟩
    · rw [if_neg hk]
      simp only [keysNodup, List.map_cons, List.nodup_cons]
      refine ⟨fun hmem => ?_, ih h.2⟩
      rcases (keys_assocInsert rest k v k').1 hmem with h' | h'
      · exact h.1 h'
      · exact hk h'

theorem keys_assocErase_sublist {β : Type} (m : List (String × β))
    (k : String) :
    ((assocErase m k).map Prod.fst).Sublist (m.map Prod.fst) := by
  induction m with
  | nil => simp [assocErase]
  | cons p rest ih =>
    obtain ⟨k', v'⟩ := p
    simp only [assocErase]
    by_cases hk : k' = k
    · rw [if_pos hk]
      simp only [List.map_cons]
      exact List.sublist_cons_self _ _
    · rw [if_neg hk]
      simp only [List.map_cons]
      exact ih.cons₂ k'

theorem keysNodup_assocErase {β : Type} (m : List (String × β))
    (k : String) (h : keysNodup m) : keysNodup (assocErase m k) :=
  (keys_assocErase_sublist m k).nodup h

theorem assocInsert_assocInsert {β : Type} (m : List (String × β))
    (k : String) (v w : β) :
    assocInsert (assocInsert m k v) k w = assocInsert m k w := by
  induction m with
  | nil => simp [assocInsert]
  | cons p rest ih =>
    obtain ⟨k', v'⟩ := p
    simp only [assocInsert]
    by_cases hk : k' = k
    · rw [if_pos hk, if_pos hk]
      simp [assocInsert]
    · rw [if_neg hk, if_neg hk]
      simp only [assocInsert]
      rw [if_neg hk, ih]

theorem assocErase_assocInsert_of_none {β : Type} (m : List (String × β))
    (k : String) (v : β) (h : assocLookup m k = none) :
    assocErase (assocInsert m k v) k = m := by
  induction m with
  | nil => simp [assocInsert, assocErase]
  | cons p rest ih =>
    obtain ⟨k', v'⟩ := p
    simp only [assocLookup] at h
    by_cases hk : k' = k
    · rw [if_pos hk] at h
      exact absurd h (Option.some_ne_none v')
    · rw [if_neg hk] at h
      simp only [assocInsert]
      rw [if_neg hk]
      simp only [assocErase]
      rw [if_neg hk, ih h]

theorem assocLookup_eq_some_iff_mem {β : Type} (m : List (String × β))
    (k : String) (v : β) (h : keysNodup m) :
    assocLookup m k = some v ↔ (k, v) ∈ m := by
  induction m with
  | nil => simp [assocLookup]
  | cons p rest ih =>
    obtain ⟨k', v'⟩ := p
    simp only [keysNodup, List.map_cons, List.nodup_cons] at h
    simp only [assocLookup, List.mem_cons]
    by_cases hk : k' = k
    · rw [if_pos hk]
      constructor
      · intro h'
        have hv : v' = v := Option.some_inj.1 h'
        left
        rw [← hk, hv]
      · rintro (h' | h')
        · injection h' with h1 h2
          rw [h2]
        · exact absurd (List.mem_map.2 ⟨(k, v), h', rfl⟩) (hk ▸ h.1)
    · rw [if_neg hk, ih h.2]
      constructor
      · exact fun h' => Or.inr h'
      · rintro (h' | h')
        · injection h' with h1 h2
          exact absurd h1.symm hk
        · exact h'

/-! ### The value-count invariant -/

theorem countVal_assocInsert_none (d : List (String × String))
    (k v w : String) (h : assocLookup d k = none) :
    countVal (assocInsert d k v) w =
      countVal d w + (if v = w then 1 else 0) := by
  induction d with
  | nil => simp [assocInsert, countVal, Nat.add_comm]
  | cons p rest ih =>
    obtain ⟨k', v'⟩ := p
    simp only [assocLookup] at h
    by_cases hk : k' = k
    · rw [if_pos hk] at h
      exact absurd h (Option.some_ne_none v')
    · rw [if_neg hk] at h
      simp only [assocInsert]
      rw [if_neg hk]
      simp only [countVal]
      rw [ih h]
      omega

theorem countVal_assocInsert_some (d : List (String × String))
    (k v w u : String) (h : assocLookup d k = some u) :
    countVal (assocInsert d k v) w + (if u = w then 1 else 0) =
      countVal d w + (if v = w then 1 else 0) := by
  induction d with
  | nil => simp [assocLookup] at h
  | cons p rest ih =>
    obtain ⟨k', v'⟩ := p
    simp only [assocLookup] at h
    by_cases hk : k' = k
    · rw [if_pos hk] at h
      have hv : v' = u := Option.some_inj.1 h
      simp only [assocInsert]
      rw [if_pos hk]
      simp only [countVal]
      rw [hv]
      omega
    · rw [if_neg hk] at h
      simp only [assocInsert]
      rw [if_neg hk]
      simp only [countVal]
      have := ih h
      omega

theorem countVal_assocErase (d : List (String × String)) (k w u : String)
    (h : assocLookup d k = some u) :
    countVal (assocErase d k) w + (if u = w then 1 else 0) = countVal d w := by
  induction d with
  | nil => simp [assocLookup] at h
  | cons p rest ih =>
    obtain ⟨k', v'⟩ := p
    simp only [assocLookup] at h
    by_cases hk : k' = k
    · rw [if_pos hk] at h
      have hv : v' = u := Option.some_inj.1 h
      simp only [assocErase]
      rw [if_pos hk]
      simp only [countVal]
      rw [hv]
      omega
    · rw [if_neg hk] at h
      simp only [assocErase]
      rw [if_neg hk]
      simp only [countVal]
      have := ih h
      omega

theorem countVal_pos (d : List (String × String)) (k u : String)
    (h : assocLookup d k = some u) : 1 ≤ countVal d u := by
  induction d with
  | nil => simp [assocLookup] at h
  | cons p rest ih =>
    obtain ⟨k', v'⟩ := p
    simp only [assocLookup] at h
    simp only [countVal]
    by_cases hk : k' = k
    · rw [if_pos hk] at h
      have hv : v' = u := Option.some_inj.1 h
      rw [if_pos hv]
      omega
    · rw [if_neg hk] at h
      have := ih h
      omega

theorem empty_wf : Database.empty.Wf := by
  refine ⟨List.nodup_nil, List.nodup_nil, fun v => ?_⟩
  simp [countVal, assocLookup]

theorem matchesCounts_congr (c : List (String × Int)) (f g : String → Nat)
    (h : matchesCounts c f) (hfg : ∀ w, f w = g w) : matchesCounts c g := by
  intro v
  rw [h v, hfg v]

theorem matchesCounts_increment (c : List (String × Int)) (f : String → Nat)
    (v : String) (hc : keysNodup c) (h : matchesCounts c f) :
    keysNodup (incrementCount c v) ∧
      matchesCounts (incrementCount c v)
        (fun w => f w + if w = v then 1 else 0) := by
  refine ⟨keysNodup_assocInsert c v _ hc, fun w => ?_⟩
  show assocLookup (incrementCount c v) w =
    if f w + (if w = v then 1 else 0) = 0 then none
    else some ((f w + if w = v then 1 else 0 : Nat) : Int)
  unfold incrementCount
  rw [assocLookup_assocInsert]
  by_cases hw : w = v
  · rw [if_pos hw, hw, if_pos rfl, if_neg (by omega), h v]
    by_cases h0 : f v = 0
    · rw [if_pos h0]
      simp [h0]
    · rw [if_neg h0]
      simp only [Option.getD_some, Option.some_inj]
      push_cast
      ring
  · rw [if_neg hw, if_neg hw, h w]
    simp

theorem matchesCounts_decrement (c : List (String × Int)) (f : String → Nat)
    (u : String) (hc : keysNodup c) (h : matchesCounts c f) (hu : 1 ≤ f u) :
    ∃ c1, decrementCount c u = some c1 ∧ keysNodup c1 ∧
      matchesCounts c1 (fun w => f w - if w = u then 1 else 0) := by
  have hcu : assocLookup c u = some (f u : Int) := by
    rw [h u, if_neg (by omega)]
  have hstep : decrementCount c u =
      some (if ((f u : Int)) - 1 = 0 then assocErase c u
        else assocInsert c u ((f u : Int) - 1)) := by
    simp [decrementCount, hcu]
  by_cases hn : ((f u : Int)) - 1 = 0
  · have hn1 : f u = 1 := by omega
    refine ⟨assocErase c u, by rw [hstep, if_pos hn],
      keysNodup_assocErase c u hc, fun w => ?_⟩
    show assocLookup (assocErase c u) w =
      if f w - (if w = u then 1 else 0) = 0 then none
      else some ((f w - if w = u then 1 else 0 : Nat) : Int)
    by_cases hw : w = u
    · rw [hw, assocLookup_assocErase_self c u hc,
        if_pos (by rw [if_pos rfl]; omega)]
    · rw [assocLookup_assocErase_ne c u w hw, h w, if_neg hw]
      simp
  · have hn2 : 2 ≤ f u := by omega
    refine ⟨assocInsert c u ((f u : Int) - 1), by rw [hstep, if_neg hn],
      keysNodup_assocInsert c u _ hc, fun w => ?_⟩
    show assocLookup (assocInsert c u ((f u : Int) - 1)) w =
      if f w - (if w = u then 1 else 0) = 0 then none
      else some ((f w - if w = u then 1 else 0 : Nat) : Int)
    rw [assocLookup_assocInsert]
    by_cases hw : w = u
    · rw [if_pos hw, hw, if_pos rfl,
        if_neg (by omega : ¬ (f u - 1 = 0))]
      simp [Nat.cast_sub hu]
    · rw [if_neg hw, h w, if_neg hw]
      simp

theorem coreSet_wf (d : List (String × String)) (c : List (String × Int))
    (k v : String) (h : PairWf d c) :
    ∃ dc, coreSet d c k v = some dc ∧ PairWf dc.1 dc.2 := by
  obtain ⟨hd, hc, hok⟩ := h
  cases hk : assocLookup d k with
  | none =>
    refine ⟨(assocInsert d k v, incrementCount c v), by simp [coreSet, hk],
      keysNodup_assocInsert d k v hd, ?_⟩
    obtain ⟨hc', hm⟩ := matchesCounts_increment c (countVal d) v hc hok
    refine ⟨hc', matchesCounts_congr _ _ _ hm fun w => ?_⟩
    show countVal d w + (if w = v then 1 else 0) =
      countVal (assocInsert d k v) w
    rw [countVal_assocInsert_none d k v w hk]
    by_cases hw : w = v
    · rw [if_pos hw, if_pos hw.symm]
    · rw [if_neg hw, if_neg (fun h' => hw h'.symm)]
  | some u =>
    have hpos : 1 ≤ countVal d u := countVal_pos d k u hk
    obtain ⟨c1, hdec, hc1, hm1⟩ :=
      matchesCounts_decrement c (countVal d) u hc hok hpos
    refine ⟨(assocInsert d k v, incrementCount c1 v),
      by simp [coreSet, hk, hdec], keysNodup_assocInsert d k v hd, ?_⟩
    obtain ⟨hc2, hm2⟩ := matchesCounts_increment c1 _ v hc1 hm1
    refine ⟨hc2, matchesCounts_congr _ _ _ hm2 fun w => ?_⟩
    show (countVal d w - (if w = u then 1 else 0)) +
        (if w = v then 1 else 0) = countVal (assocInsert d k v) w
    have heq := countVal_assocInsert_some d k v w u hk
    by_cases hwu : w = u <;> by_cases hwv : w = v
    · rw [if_pos hwu, if_pos hwv]
      rw [if_pos hwu.symm, if_pos hwv.symm] at heq
      have hww : countVal d w = countVal d u := by rw [hwu]
      omega
    · rw [if_pos hwu, if_neg hwv]
      rw [if_pos hwu.symm, if_neg (fun h' => hwv h'.symm)] at heq
      have hww : countVal d w = countVal d u := by rw [hwu]
      omega
    · rw [if_neg hwu, if_pos hwv]
      rw [if_neg (fun h' => hwu h'.symm), if_pos hwv.symm] at heq
      omega
    · rw [if_neg hwu, if_neg hwv]
      rw [if_neg (fun h' => hwu h'.symm), if_neg (fun h' => hwv h'.symm)] at heq
      omega

theorem coreUnset_wf (d : List (String × String)) (c : List (String × Int))
    (k : String) (h : PairWf d c) :
    ∃ dc, coreUnset d c k = some dc ∧ PairWf dc.1 dc.2 := by
  obtain ⟨hd, hc, hok⟩ := h
  cases hk : assocLookup d k with
  | none => exact ⟨(d, c), by simp [coreUnset, hk], hd, hc, hok⟩
  | some u =>
    have hpos : 1 ≤ countVal d u := countVal_pos d k u hk
    obtain ⟨c1, hdec, hc1, hm1⟩ :=
      matchesCounts_decrement c (countVal d) u hc hok hpos
    refine ⟨(assocErase d k, c1), by simp [coreUnset, hk, hdec],
      keysNodup_assocErase d k hd, hc1, ?_⟩
    refine matchesCounts_congr _ _ _ hm1 fun w => ?_
    show countVal d w - (if w = u then 1 else 0) =
      countVal (assocErase d k) w
    have heq := countVal_assocErase d k w u hk
    by_cases hwu : w = u
    · rw [if_pos hwu]
      rw [if_pos hwu.symm] at heq
      have hww : countVal d w = countVal d u := by rw [hwu]
      omega
    · rw [if_neg hwu]
      rw [if_neg (fun h' => hwu h'.symm)] at heq
      omega

theorem rollbackFold_wf (top : Frame) :
    ∀ d c, PairWf d c →
      ∃ dc, top.foldlM rollbackStep (d, c) = some dc ∧ PairWf dc.1 dc.2 := by
  induction top with
  | nil => exact fun d c h => ⟨(d, c), rfl, h⟩
  | cons e rest ih =>
    intro d c h
    obtain ⟨dc1, hstep, hwf1⟩ :
        ∃ dc1, rollbackStep (d, c) e = some dc1 ∧ PairWf dc1.1 dc1.2 := by
      unfold rollbackStep
      cases e.2 with
      | none => exact coreUnset_wf d c e.1 h
      | some old => exact coreSet_wf d c e.1 old h
    obtain ⟨dc, hfold, hwf⟩ := ih dc1.1 dc1.2 hwf1
    refine ⟨dc, ?_, hwf⟩
    rw [List.foldlM_cons, hstep]
    simpa using hfold

theorem set_wf (db : Database) (k v : String) (h : db.Wf) :
    ∃ db', db.set k v = some db' ∧ db'.Wf := by
  obtain ⟨dc, hcs, hwf⟩ := coreSet_wf db.data db.counts k v h
  have hset : db.set k v = some
      { data := dc.1, counts := dc.2
        transactions :=
          match db.transactions with
          | [] => []
          | top :: rest => assocInsert top k (assocLookup db.data k) :: rest } := by
    simp [Database.set, hcs]
  exact ⟨_, hset, hwf⟩

theorem unset_wf (db : Database) (k : String) (h : db.Wf) :
    ∃ db', db.unset k = some db' ∧ db'.Wf := by
  cases hk : assocLookup db.data k with
  | none => exact ⟨db, by simp [Database.unset, hk], h⟩
  | some u =>
    obtain ⟨dc, hcu, hwf⟩ := coreUnset_wf db.data db.counts k h
    have hun : db.unset k = some
        { data := dc.1, counts := dc.2
          transactions :=
            match db.transactions with
            | [] => []
            | top :: rest => assocInsert top k (some u) :: rest } := by
      simp [Database.unset, hk, hcu]
    exact ⟨_, hun, hwf⟩

theorem rollback_wf (db : Database) (h : db.Wf) :
    ∃ p, db.rollback = some p ∧ p.1.Wf := by
  cases ht : db.transactions with
  | nil => exact ⟨(db, none), by simp [Database.rollback, ht], h⟩
  | cons top rest =>
    obtain ⟨dc, hfold, hwf⟩ := rollbackFold_wf top db.data db.counts h
    have hrb : db.rollback = some
        ({ data := dc.1, counts := dc.2, transactions := rest }, none) := by
      simp [Database.rollback, ht, hfold]
    exact ⟨_, hrb, hwf⟩

theorem commit_wf (db : Database) (h : db.Wf) : (db.commit).1.Wf := by
  cases ht : db.transactions with
  | nil => simpa [Database.commit, ht] using h
  | cons top rest =>
    cases rest with
    | nil => simpa [Database.commit, ht, Database.Wf] using h
    | cons parent rest' => simpa [Database.commit, ht, Database.Wf] using h

theorem applyOp_wf (db : Database) (op : Op) (h : db.Wf) :
    ∃ db', applyOp db op = some db' ∧ db'.Wf := by
  cases op with
  | set k v => exact set_wf db k v h
  | unset k => exact unset_wf db k h
  | begin => exact ⟨db.begin, rfl, h⟩
  | rollback =>
    obtain ⟨p, hp, hwf⟩ := rollback_wf db h
    exact ⟨p.1, by simp [applyOp, hp], hwf⟩
  | commit => exact ⟨(db.commit).1, rfl, commit_wf db h⟩

theorem runOps_wf (ops : List Op) :
    ∀ db, db.Wf → ∃ db', runOps db ops = some db' ∧ db'.Wf := by
  induction ops with
  | nil => exact fun db h => ⟨db, rfl, h⟩
  | cons op rest ih =>
    intro db h
    obtain ⟨db1, hop, hwf1⟩ := applyOp_wf db op h
    obtain ⟨db', hrun, hwf⟩ := ih db1 hwf1
    refine ⟨db', ?_, hwf⟩
    unfold runOps at hrun ⊢
    rw [List.foldlM_cons, hop]
    simpa using hrun

/-! ### Commit merge and sort-order lemmas -/

theorem assocLookup_mergeFrames_of_some (top : Frame) :
    ∀ (parent : Frame) (k : String) (w : Option String),
      assocLookup parent k = some w →
      assocLookup (mergeFrames parent top) k = some w := by
  induction top with
  | nil => intro parent k w h; simpa [mergeFrames] using h
  | cons e rest ih =>
    intro parent k w h
    have hm : mergeFrames parent (e :: rest) =
        mergeFrames (if (assocLookup parent e.1).isSome then parent
          else assocInsert parent e.1 e.2) rest := by
      simp [mergeFrames]
    rw [hm]
    by_cases hp : (assocLookup parent e.1).isSome
    · rw [if_pos hp]
      exact ih parent k w h
    · rw [if_neg hp]
      have hke : ¬ k = e.1 := by
        intro hh
        rw [hh] at h
        rw [Option.not_isSome_iff_eq_none.1 hp] at h
        exact Option.noConfusion h
      refine ih _ k w ?_
      rw [assocLookup_assocInsert, if_neg hke]
      exact h

theorem assocLookup_mergeFrames_of_none (top : Frame) :
    ∀ (parent : Frame) (k : String),
      assocLookup parent k = none →
      assocLookup (mergeFrames parent top) k = assocLookup top k := by
  induction top with
  | nil => intro parent k h; simpa [mergeFrames] using h
  | cons e rest ih =>
    intro parent k h
    have hm : mergeFrames parent (e :: rest) =
        mergeFrames (if (assocLookup parent e.1).isSome then parent
          else assocInsert parent e.1 e.2) rest := by
      simp [mergeFrames]
    rw [hm]
    obtain ⟨k1, w1⟩ := e
    show assocLookup
        (mergeFrames (if (assocLookup parent k1).isSome then parent
          else assocInsert parent k1 w1) rest) k =
      if k1 = k then some w1 else assocLookup rest k
    by_cases hp : (assocLookup parent k1).isSome
    · rw [if_pos hp]
      have hke : ¬ k1 = k := by
        intro hh
        rw [hh] at hp
        rw [h] at hp
        exact Bool.noConfusion hp
      rw [if_neg hke]
      exact ih parent k h
    · rw [if_neg hp]
      by_cases hke : k1 = k
      · rw [if_pos hke]
        refine assocLookup_mergeFrames_of_some rest _ k w1 ?_
        rw [assocLookup_assocInsert, if_pos hke.symm]
      · rw [if_neg hke]
        refine ih _ k ?_
        rw [assocLookup_assocInsert, if_neg (fun hh => hke hh.symm)]
        exact h

theorem lexLe_total (as bs : List Char) :
    lexLe as bs = true ∨ lexLe bs as = true := by
  induction as generalizing bs with
  | nil => left; rfl
  | cons a as ih =>
    cases bs with
    | nil => right; rfl
    | cons b bs =>
      simp only [lexLe]
      rcases Nat.lt_trichotomy a.val.toNat b.val.toNat with h | h | h
      · left; rw [if_pos h]
      · have h1 : ¬ a.val.toNat < b.val.toNat := by omega
        have h2 : ¬ b.val.toNat < a.val.toNat := by omega
        rw [if_neg h1, if_neg h2, if_neg h2, if_neg h1]
        exact ih bs
      · right; rw [if_pos h]

theorem lexLe_trans (as : List Char) :
    ∀ bs cs, lexLe as bs = true → lexLe bs cs = true →
      lexLe as cs = true := by
  induction as with
  | nil => intro bs cs _ _; rfl
  | cons a as ih =>
    intro bs cs h1 h2
    cases bs with
    | nil => simp [lexLe] at h1
    | cons b bs =>
      cases cs with
      | nil => simp [lexLe] at h2
      | cons c cs =>
        simp only [lexLe] at h1 h2 ⊢
        split_ifs at h1 h2 ⊢ <;>
          first
          | rfl
          | exact ih bs cs h1 h2
          | exact absurd h1 Bool.false_ne_true
          | exact absurd h2 Bool.false_ne_true
          | (exfalso; omega)

instance : IsTotal String fun a b => keyLe a b = true :=
  ⟨fun a b => lexLe_total a.data b.data⟩

instance : IsTrans String fun a b => keyLe a b = true :=
  ⟨fun a b c h1 h2 => lexLe_trans a.data b.data c.data h1 h2⟩

/-! ### Claim theorems -/

/-- C3: after every sequence of set/unset/begin/rollback/commit operations
from a fresh store, the keys of `data` are distinct, `counts[v]` (as read by
`get_counts`) equals the number of keys holding `v`, and the counts map
never contains a zero or negative entry. -/
theorem index_consistency (ops : List Op) (db : Database)
    (h : runOps Database.empty ops = some db) :
    keysNodup db.data ∧
      (∀ v, db.get_counts v = (countVal db.data v : Int)) ∧
      (∀ v n, assocLookup db.counts v = some n → 0 < n) := by
  obtain ⟨db', hrun, hwf⟩ := runOps_wf ops Database.empty empty_wf
  rw [h] at hrun
  obtain rfl : db = db' := Option.some_inj.1 hrun
  obtain ⟨hd, hc, hok⟩ := hwf
  refine ⟨hd, fun v => ?_, fun v n hvn => ?_⟩
  · unfold Database.get_counts
    rw [hok v]
    by_cases h0 : countVal db.data v = 0
    · rw [if_pos h0]
      simp [h0]
    · rw [if_neg h0]
      simp
  · rw [hok v] at hvn
    by_cases h0 : countVal db.data v = 0
    · rw [if_pos h0] at hvn
      exact Option.noConfusion hvn
    · rw [if_neg h0] at hvn
      have hn := Option.some_inj.1 hvn
      omega

/-- Witness for C3 at the concrete run `SET A 10`. -/
theorem index_consistency_witness :
    keysNodup ([("A", "10")] : List (String × String)) ∧
      (Database.mk [("A", "10")] [("10", 1)] []).get_counts "10" =
        (countVal [("A", "10")] "10" : Int) ∧
      (0 : Int) < 1 := by
  have h := index_consistency [Op.set "A" "10"]
    ⟨[("A", "10")], [("10", 1)], []⟩ (by rfl)
  exact ⟨h.1, h.2.1 "10", h.2.2 "10" 1 (by rfl)⟩

/-- C8: `unset` of an absent key is a silent no-op, and `rollback`/`commit`
with an empty transaction stack leave the store unchanged, raise nothing
(they return a value instead of `none`), and stay safe under repetition. -/
theorem noop_cases_safe (db : Database) :
    (∀ k, assocLookup db.data k = none → db.unset k = some db) ∧
      (db.transactions = [] →
        db.rollback = some (db, none) ∧ db.commit = (db, none) ∧
        ∀ n : Nat, (fun d : Database => (d.commit).1)^[n] db = db) := by
  constructor
  · intro k hk
    simp [Database.unset, hk]
  · intro ht
    have hcommit : db.commit = (db, none) := by
      simp [Database.commit, ht]
    refine ⟨by simp [Database.rollback, ht], hcommit, ?_⟩
    intro n
    induction n with
    | zero => rfl
    | succ m ihm =>
      rw [Function.iterate_succ_apply]
      show (fun d : Database => (d.commit).1)^[m] ((db.commit).1) = db
      rw [hcommit]
      exact ihm

/-- Witness for C8 at the fresh store, key `B`, two repetitions. -/
theorem noop_cases_safe_witness :
    Database.empty.unset "B" = some Database.empty ∧
      Database.empty.rollback = some (Database.empty, none) ∧
      Database.empty.commit = (Database.empty, none) ∧
      (fun d : Database => (d.commit).1)^[2] Database.empty =
        Database.empty := by
  have h := noop_cases_safe Database.empty
  have h2 := h.2 rfl
  exact ⟨h.1 "B" rfl, h2.1, h2.2.1, h2.2.2 2⟩

/-- C9: a key stored with the literal value `"NULL"` is indistinguishable,
through `get`, from an absent key — both reads return `"NULL"`. -/
theorem get_null_sentinel_collision (db db' : Database) (k k' : String)
    (h : assocLookup db.data k = some "NULL")
    (h' : assocLookup db'.data k' = none) :
    db.get k = "NULL" ∧ db.get k = db'.get k' := by
  unfold Database.get
  rw [h, h']
  exact ⟨rfl, rfl⟩

/-- Witness for C9: `A` stored as `"NULL"` versus absent `B`. -/
theorem get_null_sentinel_collision_witness :
    (Database.mk [("A", "NULL")] [("NULL", 1)] []).get "A" = "NULL" ∧
      (Database.mk [("A", "NULL")] [("NULL", 1)] []).get "A" =
        Database.empty.get "B" :=
  get_null_sentinel_collision ⟨[("A", "NULL")], [("NULL", 1)], []⟩
    Database.empty "A" "B" rfl rfl

/-- C10: `commit` never changes `data` or `counts` in any state; it only
pops the top frame of the transaction stack (possibly merging it into the
frame below, which becomes the new top). -/
theorem commit_touches_only_stack (db : Database) :
    (db.commit).1.data = db.data ∧ (db.commit).1.counts = db.counts ∧
      (db.commit).1.transactions.length = db.transactions.tail.length ∧
      (db.commit).1.transactions.tail = db.transactions.tail.tail := by
  cases ht : db.transactions with
  | nil => simp [Database.commit, ht]
  | cons top rest =>
    cases rest with
    | nil => simp [Database.commit, ht]
    | cons parent rest' => simp [Database.commit, ht]

/-- C4: with at least two frames on the stack, `commit` pops the top frame
and merges it into the parent without touching `data`/`counts`: entries
already recorded in the parent are kept, and entries of the popped frame
with keys new to the parent become readable in the merged frame unchanged. -/
theorem commit_merge_no_overwrite (db : Database) (top parent : Frame)
    (rest : List Frame) (h : db.transactions = top :: parent :: rest) :
    (db.commit).1.data = db.data ∧ (db.commit).1.counts = db.counts ∧
      (db.commit).1.transactions = mergeFrames parent top :: rest ∧
      (∀ k w, assocLookup parent k = some w →
        assocLookup (mergeFrames parent top) k = some w) ∧
      (∀ k, assocLookup parent k = none →
        assocLookup (mergeFrames parent top) k = assocLookup top k) := by
  refine ⟨?_, ?_, ?_,
    fun k w hk => assocLookup_mergeFrames_of_some top parent k w hk,
    fun k hk => assocLookup_mergeFrames_of_none top parent k hk⟩ <;>
    simp [Database.commit, h]

/-- Witness for C4 on a two-frame stack: the parent's record for `A` is
kept, the popped record for `C` is merged in. -/
theorem commit_merge_no_overwrite_witness :
    ((Database.mk [("A", "2")] [("2", 1)]
        [[("A", some "1"), ("C", some "3")], [("A", none)]]).commit).1.transactions =
      mergeFrames [("A", none)] [("A", some "1"), ("C", some "3")] :: [] ∧
      assocLookup (mergeFrames [("A", none)]
        [("A", some "1"), ("C", some "3")]) "A" = some none ∧
      assocLookup (mergeFrames [("A", none)]
        [("A", some "1"), ("C", some "3")]) "C" =
        assocLookup [("A", some "1"), ("C", some "3")] "C" := by
  have h := commit_merge_no_overwrite
    ⟨[("A", "2")], [("2", 1)],
      [[("A", some "1"), ("C", some "3")], [("A", none)]]⟩
    [("A", some "1"), ("C", some "3")] [("A", none)] [] rfl
  exact ⟨h.2.2.1, h.2.2.2.1 "A" none rfl, h.2.2.2.2 "C" rfl⟩

/-- C7: on a store with distinct data keys (every reachable store),
`find v` contains exactly the keys currently mapped to `v`, is sorted
ascending in the lexicographic key order, and is empty exactly when no key
maps to `v`; `find` is a pure function of the state. -/
theorem find_spec (db : Database) (v : String) (hd : keysNodup db.data) :
    (∀ k, k ∈ db.find v ↔ assocLookup db.data k = some v) ∧
      (db.find v).Sorted (fun a b => keyLe a b = true) ∧
      (db.find v = [] ↔ ∀ k, ¬ assocLookup db.data k = some v) := by
  have hmem : ∀ k, k ∈ db.find v ↔ assocLookup db.data k = some v := by
    intro k
    unfold Database.find
    rw [List.mem_insertionSort, List.mem_map]
    constructor
    · rintro ⟨p, hp, rfl⟩
      obtain ⟨k1, v1⟩ := p
      rw [List.mem_filter] at hp
      have hv : v1 = v := by simpa using hp.2
      rw [assocLookup_eq_some_iff_mem _ _ _ hd]
      exact hv ▸ hp.1
    · intro hk
      rw [assocLookup_eq_some_iff_mem _ _ _ hd] at hk
      exact ⟨(k, v), List.mem_filter.2 ⟨hk, by simp⟩, rfl⟩
  refine ⟨hmem, List.sorted_insertionSort _ _, ?_⟩
  rw [List.eq_nil_iff_forall_not_mem]
  constructor
  · intro h k hk
    exact h k ((hmem k).2 hk)
  · intro h k hk
    exact h k ((hmem k).1 hk)

/-- Witness for C7 on a store holding `B=10, A=10`. -/
theorem find_spec_witness :
    ("A" ∈ (Database.mk [("B", "10"), ("A", "10")] [("10", 2)] []).find "10" ↔
      assocLookup [("B", "10"), ("A", "10")] "A" = some "10") ∧
      ((Database.mk [("B", "10"), ("A", "10")] [("10", 2)] []).find
        "10").Sorted (fun a b => keyLe a b = true) := by
  have h := find_spec ⟨[("B", "10"), ("A", "10")], [("10", 2)], []⟩ "10"
    (by decide)
  exact ⟨h.1 "A", h.2.1⟩

/-- C1 fails on the code: `set` records into the top frame with a blind
upsert, so after `begin(); set("A","1"); set("A","2")` the frame holds the
intermediate value `"1"` and `rollback()` restores `A = "1"` instead of the
pre-begin state (an empty store). -/
theorem rollback_roundtrip_failure :
    runOps Database.empty
        [Op.begin, Op.set "A" "1", Op.set "A" "2", Op.rollback] =
      some ⟨[("A", "1")], [("1", 1)], []⟩ ∧
      ¬ (runOps Database.empty
          [Op.begin, Op.set "A" "1", Op.set "A" "2", Op.rollback]).map
            Database.data = some Database.empty.data :=
  ⟨rfl, by decide⟩

/-- C2 fails on the code: the first mutation of `A` inside the frame records
`none` (absent), but the second `set` overwrites that frame entry with
`some "1"` rather than leaving it unchanged. -/
theorem frame_entry_overwritten :
    (runOps Database.empty [Op.begin, Op.set "A" "1"]).map
        Database.transactions = some [[("A", none)]] ∧
      (runOps Database.empty
          [Op.begin, Op.set "A" "1", Op.set "A" "2"]).map
        Database.transactions = some [[("A", some "1")]] ∧
      ¬ (runOps Database.empty
          [Op.begin, Op.set "A" "1", Op.set "A" "2"]).map
        Database.transactions = some [[("A", none)]] :=
  ⟨rfl, rfl, by decide⟩

/-- C6 fails on the code: `rollback`/`commit` on an empty stack return the
very same result (`None`, state unchanged) as a successful
`rollback`/`commit` of an empty scope, so the two are indistinguishable. -/
theorem no_transaction_signal_counterexample :
    Database.empty.rollback = (Database.empty.begin).rollback ∧
      Database.empty.commit = (Database.empty.begin).commit :=
  ⟨rfl, rfl⟩

/-- C6 amended: `rollback` and `commit` always return `None` — the
empty-stack case is a silent no-op whose return value is identical to that
of a successful `rollback`/`commit`, so the caller cannot report
"no transaction" from the result. -/
theorem no_transaction_returns_none (db : Database) :
    (db.commit).2 = none ∧
      (∀ p, db.rollback = some p → p.2 = none) ∧
      (db.transactions = [] →
        db.rollback = some (db, none) ∧ db.commit = (db, none)) := by
  refine ⟨?_, ?_, ?_⟩
  · cases ht : db.transactions with
    | nil => simp [Database.commit, ht]
    | cons top rest =>
      cases rest with
      | nil => simp [Database.commit, ht]
      | cons parent rest' => simp [Database.commit, ht]
  · intro p hp
    cases ht : db.transactions with
    | nil =>
      have hr : db.rollback = some (db, none) := by
        simp [Database.rollback, ht]
      rw [hr] at hp
      obtain rfl := Option.some_inj.1 hp
      rfl
    | cons top rest =>
      have hr : db.rollback =
          (top.foldlM rollbackStep (db.data, db.counts)).map fun dc =>
            ({ data := dc.1, counts := dc.2, transactions := rest }, none) := by
        simp [Database.rollback, ht]
      rw [hr] at hp
      obtain ⟨dc, hdc, hfa⟩ := Option.map_eq_some'.1 hp
      rw [← hfa]
  · intro ht
    exact ⟨by simp [Database.rollback, ht], by simp [Database.commit, ht]⟩

/-- Witness for the amended C6 at the fresh store. -/
theorem no_transaction_returns_none_witness :
    (Database.empty.commit).2 = none ∧
      ((Database.empty, (none : Option String))).2 = none ∧
      Database.empty.rollback = some (Database.empty, none) ∧
      Database.empty.commit = (Database.empty, none) := by
  have h := no_transaction_returns_none Database.empty
  have h3 := h.2.2 rfl
  exact ⟨h.1, h.2.1 (Database.empty, none) h3.1, h3.1, h3.2⟩

theorem decrementCount_isSome (c : List (String × Int)) (v : String)
    (n : Int) (h : assocLookup c v = some n) :
    ∃ c1, decrementCount c v = some c1 :=
  ⟨if n - 1 = 0 then assocErase c v else assocInsert c v (n - 1),
    by simp [decrementCount, h]⟩

theorem runOps_cons_of (x y z : Database) (op : Op) (ops' : List Op)
    (h1 : applyOp x op = some y) (h2 : runOps y ops' = some z) :
    runOps x (op :: ops') = some z := by
  unfold runOps at h2 ⊢
  rw [List.foldlM_cons, h1]
  simpa using h2

/-- C5: from any store in which `A` is absent, the sequence
`begin; set A 1; begin; set A 2; commit; rollback` runs without error and
restores `data` exactly (in particular `A` is absent and `get A` yields
`"NULL"`), despite the inner commit. -/
theorem nested_commit_rollback (db : Database)
    (h : assocLookup db.data "A" = none) :
    (runOps db [Op.begin, Op.set "A" "1", Op.begin, Op.set "A" "2",
        Op.commit, Op.rollback]).map Database.data = some db.data ∧
      (runOps db [Op.begin, Op.set "A" "1", Op.begin, Op.set "A" "2",
        Op.commit, Op.rollback]).map (fun x => x.get "A") = some "NULL" := by
  obtain ⟨d, c, ts⟩ := db
  have h : assocLookup d "A" = none := h
  have s1 : applyOp (Database.mk d c ts) Op.begin = some ⟨d, c, [] :: ts⟩ :=
    rfl
  have s2 : applyOp ⟨d, c, [] :: ts⟩ (Op.set "A" "1") =
      some ⟨assocInsert d "A" "1", incrementCount c "1",
        [("A", none)] :: ts⟩ := by
    simp [applyOp, Database.set, coreSet, h, assocInsert]
  have s3 : applyOp ⟨assocInsert d "A" "1", incrementCount c "1",
        [("A", none)] :: ts⟩ Op.begin =
      some ⟨assocInsert d "A" "1", incrementCount c "1",
        [] :: [("A", none)] :: ts⟩ := rfl
  have hl1 : assocLookup (incrementCount c "1") "1" =
      some ((assocLookup c "1").getD 0 + 1) := by
    unfold incrementCount
    rw [assocLookup_assocInsert, if_pos rfl]
  obtain ⟨c3, hc3⟩ := decrementCount_isSome (incrementCount c "1") "1" _ hl1
  have hlookd2 : assocLookup (assocInsert d "A" "1") "A" = some "1" := by
    rw [assocLookup_assocInsert, if_pos rfl]
  have s4 : applyOp ⟨assocInsert d "A" "1", incrementCount c "1",
        [] :: [("A", none)] :: ts⟩ (Op.set "A" "2") =
      some ⟨assocInsert d "A" "2", incrementCount c3 "2",
        [("A", some "1")] :: [("A", none)] :: ts⟩ := by
    simp [applyOp, Database.set, coreSet, hlookd2, hc3, assocInsert,
      assocInsert_assocInsert]
  have s5 : applyOp ⟨assocInsert d "A" "2", incrementCount c3 "2",
        [("A", some "1")] :: [("A", none)] :: ts⟩ Op.commit =
      some ⟨assocInsert d "A" "2", incrementCount c3 "2",
        [("A", none)] :: ts⟩ := rfl
  have hlookd4 : assocLookup (assocInsert d "A" "2") "A" = some "2" := by
    rw [assocLookup_assocInsert, if_pos rfl]
  have hl2 : assocLookup (incrementCount c3 "2") "2" =
      some ((assocLookup c3 "2").getD 0 + 1) := by
    unfold incrementCount
    rw [assocLookup_assocInsert, if_pos rfl]
  obtain ⟨c5, hc5⟩ :=
    decrementCount_isSome (incrementCount c3 "2") "2" _ hl2
  have hde : assocErase (assocInsert d "A" "2") "A" = d :=
    assocErase_assocInsert_of_none d "A" "2" h
  have s6 : applyOp ⟨assocInsert d "A" "2", incrementCount c3 "2",
        [("A", none)] :: ts⟩ Op.rollback = some ⟨d, c5, ts⟩ := by
    simp [applyOp, Database.rollback, rollbackStep, coreUnset,
      hlookd4, hc5, hde]
  have hrun : runOps (Database.mk d c ts)
      [Op.begin, Op.set "A" "1", Op.begin, Op.set "A" "2",
        Op.commit, Op.rollback] = some ⟨d, c5, ts⟩ :=
    runOps_cons_of _ _ _ _ _ s1 (runOps_cons_of _ _ _ _ _ s2
      (runOps_cons_of _ _ _ _ _ s3 (runOps_cons_of _ _ _ _ _ s4
        (runOps_cons_of _ _ _ _ _ s5 (runOps_cons_of _ _ _ _ _ s6 rfl)))))
  constructor
  · rw [hrun]
    rfl
  · rw [hrun]
    show some ((⟨d, c5, ts⟩ : Database).get "A") = some "NULL"
    unfold Database.get
    rw [h]
    rfl

/-- Witness for C5 at the fresh store. -/
theorem nested_commit_rollback_witness :
    (runOps Database.empty [Op.begin, Op.set "A" "1", Op.begin,
        Op.set "A" "2", Op.commit, Op.rollback]).map Database.data =
      some [] ∧
      (runOps Database.empty [Op.begin, Op.set "A" "1", Op.begin,
        Op.set "A" "2", Op.commit, Op.rollback]).map
        (fun x => x.get "A") = some "NULL" :=
  nested_commit_rollback Database.empty rfl
